import Mathlib

/-!
Shallow embedding of the git-oops command-line tool (TypeScript sources under
`src/git-oops/src` and the unnamed command files) together with proofs about
the claims of its specification.

Modelling conventions:
* Each command's `.action` body is embedded as a pure Lean function from an
  environment record (the values the command observes from the repository:
  status, commit list, upstream, confirmation answers, success/failure of the
  fallible git calls, the current timestamp and the process PRNG draw) and an
  options record (the CLI flags) to a pair of a `CmdResult` and the ordered
  list of git subprocess calls the run issues (`List GitCall`).
* Read-only queries performed through several underlying execs (for example
  `getUpstream`, which tries `rev-parse @{u}` and falls back to
  `rev-parse origin/<branch>`) are recorded as a single query entry in the
  trace; mutating calls are recorded one-to-one with the source.
* Logging, colours and prompt rendering are presentation-only and are not
  modelled; the interactive answer of `confirm` is an environment field.
-/

/-- A commit record as parsed by `Git.getCommits` (`src/git-oops/src/lib/git.ts`). -/
structure Commit where
  sha : String
  subject : String
  author : String
  date : String
deriving Repr, DecidableEq

/-- The `GitStatus` snapshot produced by `Git.getStatus`
(`src/git-oops/src/lib/git.ts`). -/
structure GitStatus where
  staged : List String
  unstaged : List String
  untracked : List String
  branch : String
  ahead : Nat
  behind : Nat
deriving Repr, DecidableEq

/-- A directory group produced by `groupFilesByDirectory`
(`src/git-oops/src/cmd/split.ts`). -/
structure FileGroup where
  directory : String
  files : List String
deriving Repr, DecidableEq

/-- JavaScript `parseInt(s, 10)`: skip leading whitespace, read an optional
sign, then the longest prefix of decimal digits; `NaN` (here `none`) when no
digit is found. -/
def parseJsInt (s : String) : Option Int :=
  let cs := s.data.dropWhile (fun c => c.isWhitespace)
  let signAndRest : Int × List Char :=
    match cs with
    | '-' :: rest => (-1, rest)
    | '+' :: rest => (1, rest)
    | _ => (1, cs)
  let digits := signAndRest.2.takeWhile (fun c => c.isDigit)
  if digits = [] then none
  else some (signAndRest.1 * ((digits.foldl (fun n c => n * 10 + (c.toNat - 48)) 0 : Nat) : Int))

/-- JavaScript `value || dflt` on an optional string option: the default is
used when the option is absent or empty, since the empty string is falsy. -/
def jsOrDefault (s : Option String) (dflt : String) : String :=
  match s with
  | none => dflt
  | some v => if v = "" then dflt else v

/-- `isValidSha` from `utils.ts`: `/^[a-f0-9]{7,40}$/i`. -/
def isValidSha (sha : String) : Bool :=
  7 ≤ sha.length && sha.length ≤ 40 &&
    sha.data.all (fun c => c.isDigit || ('a' ≤ c && c ≤ 'f') || ('A' ≤ c && c ≤ 'F'))

/-- The safety-tag name built inline by the undo command
(`src/git-oops/src/cmd/undo.ts`): prefix, commit count, timestamp at second
granularity, and the random suffix drawn from `Math.random`. -/
def undoTagName (commitCount : Nat) (timestamp randomSuffix : String) : String :=
  "oops/undo-" ++ toString commitCount ++ "-commits-" ++ timestamp ++ "-" ++ randomSuffix

/-- The safety-tag name built inline by the revert-merge command (the command
file concatenated in `lib/git.ts`): prefix, 8-character short hash and the
timestamp at second granularity.  The source draws no random suffix here. -/
def revertMergeTagName (shortSha timestamp : String) : String :=
  "oops/revert-merge-" ++ shortSha ++ "-" ++ timestamp

/-- One git subprocess call as issued through `Git.exec`.  Read-only queries
carry the query kind; mutating calls carry the arguments that matter to the
claims. -/
inductive GitCall
  | statusCall
  | stagedFilesQuery
  | branchQuery
  | upstreamQuery
  | commitsQuery (range : String) (limit : Option Nat)
  | countQuery (range : String)
  | revListParents (sha : String)
  | revParseHead
  | remoteListQuery
  | tagCreate (name : String)
  | resetSoft (n : Nat)
  | resetHard (target : String)
  | unstageAll
  | stageFiles (files : List String)
  | addAll
  | commitCreate (message : String)
  | commitAmend (message : Option String)
  | branchCreate (name : String)
  | checkoutCall (name : String)
  | stashPush (message : String)
  | stashPop
  | stashCreateCall (message : String)
  | cleanForce
  | pullCall (rebase : Bool)
  | updateRefCall (ref sha : String)
  | revertCall (mainline : Nat) (sha : String)
  | pushRef (remote ref : String)
deriving Repr, DecidableEq

/-- The repository-mutating operations named by the specification's ordering
invariant: commit, amend, reset (soft, hard, and the `reset HEAD` behind
`unstageAll`), branch create/switch, stash, clean, update-ref, revert. -/
def isMutatingCall : GitCall → Bool
  | GitCall.resetSoft _ => true
  | GitCall.resetHard _ => true
  | GitCall.unstageAll => true
  | GitCall.commitCreate _ => true
  | GitCall.commitAmend _ => true
  | GitCall.branchCreate _ => true
  | GitCall.checkoutCall _ => true
  | GitCall.stashPush _ => true
  | GitCall.stashPop => true
  | GitCall.stashCreateCall _ => true
  | GitCall.cleanForce => true
  | GitCall.updateRefCall _ _ => true
  | GitCall.revertCall _ _ => true
  | _ => false

/-- Safety-marker creation: the annotated `git tag` call. -/
def isMarkerCall : GitCall → Bool
  | GitCall.tagCreate _ => true
  | _ => false

/-- `secureBeforeMutate trace` holds when, in the prefix of the trace up to
the first safety-marker creation, no mutating call occurs — i.e. every
mutating call in the trace is preceded by an earlier marker creation. -/
def secureBeforeMutate : List GitCall → Bool
  | [] => true
  | c :: rest =>
    if isMutatingCall c then false
    else if isMarkerCall c then true
    else secureBeforeMutate rest

/-- The outcome of one command run at the process boundary. -/
inductive CmdResult
  | ok
  | noop
  | dryRunExit
  | cancelled
  | validationError (msg : String)
  | toolError
  | partialSuccess
deriving Repr, DecidableEq

/-- A JavaScript regular-expression `.` (no `s` flag): any character except a
line terminator. -/
def jsDotMatches (c : Char) : Bool :=
  c ≠ '\n' && c ≠ '\r' && c.toNat ≠ 0x2028 && c.toNat ≠ 0x2029

/-- Strip a literal pattern from the front of a character list; `none` when
the list does not start with the pattern. -/
def dropLit : List Char → List Char → Option (List Char)
  | [], cs => some cs
  | _ :: _, [] => none
  | p :: ps, c :: cs => if c = p then dropLit ps cs else none

/-- `/^p.+/ .test name` for a literal pattern `p`: the name starts with `p`
and at least one non-line-terminator character follows. -/
def testDotPlusAfter (p name : String) : Bool :=
  match dropLit p.data name.data with
  | none => false
  | some [] => false
  | some (c :: _) => jsDotMatches c

/-- `isProtectedBranch` from `utils.ts`: the fixed patterns `/^main$/`,
`/^master$/`, `/^production$/`, `/^prod$/`, `/^release\/.+/`, `/^hotfix\/.+/`. -/
def isProtectedBranch (branchName : String) : Bool :=
  branchName == "main" || branchName == "master" ||
  branchName == "production" || branchName == "prod" ||
  testDotPlusAfter "release/" branchName ||
  testDotPlusAfter "hotfix/" branchName

/-- `filePath.replace(/\\/g, "/")` on one character: the global replacement
of the single-character pattern backslash by slash. -/
def normalizeSep (c : Char) : Char := if c = '\\' then '/' else c

/-- JavaScript `String.prototype.split("/")` over the character list: the
segments between slashes, with empty segments preserved (splitting the empty
string yields one empty segment). -/
def splitOnSlash : List Char → List (List Char)
  | [] => [[]]
  | c :: cs =>
    if c = '/' then [] :: splitOnSlash cs
    else
      match splitOnSlash cs with
      | [] => [[c]]
      | p :: ps => (c :: p) :: ps

/-- `getTopLevelDirectory` from `utils.ts`: normalise backslashes to slashes,
split on `/`; the key is the first segment, or the sentinel `_root_` when the
path has a single segment or starts with a separator. -/
def getTopLevelDirectory (filePath : String) : String :=
  let normalized := filePath.data.map normalizeSep
  let parts := splitOnSlash normalized
  match parts with
  | [] => "_root_"
  | p :: rest => if rest = [] ∨ p = [] then "_root_" else String.mk p

/-- Append `f` to the entry for key `k` of an insertion-ordered association
list, creating the entry at the end when absent — the behaviour of the
JavaScript `Map` in `groupFilesByDirectory`. -/
def addToGroups (m : List (String × List String)) (k f : String) :
    List (String × List String) :=
  match m with
  | [] => [(k, [f])]
  | (k', fs) :: rest =>
    if k' = k then (k', fs ++ [f]) :: rest else (k', fs) :: addToGroups rest k f

/-- The `Map` built by the first loop of `groupFilesByDirectory`. -/
def buildGroups (files : List String) : List (String × List String) :=
  files.foldl (fun m f => addToGroups m (getTopLevelDirectory f) f) []

/-- `Map.get` on the association list (the key is always present when used). -/
def lookupGroup : List (String × List String) → String → List String
  | [], _ => []
  | (k, fs) :: rest, d => if k = d then fs else lookupGroup rest d

/-- Lexicographic order on character lists by code point — the model used
for both JavaScript string comparisons in the split command
(`localeCompare` between directory keys and the default `Array.sort`
comparison between file paths). -/
def listLexLe : List Char → List Char → Bool
  | [], _ => true
  | _ :: _, [] => false
  | a :: as, b :: bs => if a = b then listLexLe as bs else decide (a < b)

/-- String comparison via `listLexLe` on the underlying characters. -/
def strLe (a b : String) : Bool := listLexLe a.data b.data

/-- The directory comparator of `groupFilesByDirectory` as a `≤`-style
relation: `_root_` sorts after every other key, other keys compare by
`localeCompare`, modelled as code-point string order. -/
def dirLE (a b : String) : Bool :=
  if a = "_root_" && !(b = "_root_") then false
  else if b = "_root_" && !(a = "_root_") then true
  else strLe a b

/-- `dirLE` as a proposition, for use with `List.insertionSort`. -/
def dirLe (a b : String) : Prop := dirLE a b = true

instance : DecidableRel dirLe := fun a b => instDecidableEqBool (dirLE a b) true

/-- The relation used to sort each group's file list (JavaScript default
`Array.sort` on strings, code-unit order modelled by `strLe`). -/
def fileLe (a b : String) : Prop := strLe a b = true

instance : DecidableRel fileLe := fun a b => instDecidableEqBool (strLe a b) true

/-- `groupFilesByDirectory` from `src/git-oops/src/cmd/split.ts`: build the
map from top-level directory to files, sort the keys with `_root_` last, and
emit each group with its file list sorted.  JavaScript `Array.sort` is stable
and is modelled by insertion sort. -/
def groupFilesByDirectory (files : List String) : List FileGroup :=
  let m := buildGroups files
  let sortedDirs := ((m.map Prod.fst).insertionSort dirLe)
  sortedDirs.map (fun d =>
    { directory := d, files := (lookupGroup m d).insertionSort fileLe })

/-- Options of the quick-save command (the unnamed `save` command file). -/
structure SaveOpts where
  message : Option String
  yes : Bool

/-- Environment observed by one run of the quick-save command. -/
structure SaveEnv where
  status : GitStatus
  confirmAnswer : Bool
  addOk : Bool
  commitOk : Bool

/-- The `save` command body: read status; stop when the tree is fully clean;
otherwise confirm, `add -A`, and commit with the given or default message. -/
def saveCommand (env : SaveEnv) (opts : SaveOpts) : CmdResult × List GitCall :=
  let t1 := [GitCall.statusCall]
  let totalChanges :=
    env.status.staged.length + env.status.unstaged.length + env.status.untracked.length
  if totalChanges = 0 then (CmdResult.noop, t1)
  else if opts.yes || env.confirmAnswer then
    let t2 := t1 ++ [GitCall.addAll]
    if env.addOk then
      let msg := opts.message.getD "WIP: quick save"
      let t3 := t2 ++ [GitCall.commitCreate msg]
      if env.commitOk then (CmdResult.ok, t3 ++ [GitCall.commitsQuery "HEAD" (some 1)])
      else (CmdResult.toolError, t3)
    else (CmdResult.toolError, t2)
  else (CmdResult.cancelled, t1)

/-- Options of the undo command (`src/git-oops/src/cmd/undo.ts`). -/
structure UndoOpts where
  commits : Option String
  dryRun : Bool
  yes : Bool

/-- Environment observed by one run of the undo command.  `history` is the
commit list reachable from `HEAD`, newest first, so `git log -n HEAD`
returns its first `n` entries. -/
structure UndoEnv where
  history : List Commit
  upstream : Option String
  unpushedCount : Nat
  confirmAnswer : Bool
  timestamp : String
  randomSuffix : String
  tagOk : Bool
  resetOk : Bool

/-- The `undo` command body: validate the count, inspect the commits to undo,
check the upstream, optionally stop for dry-run or confirmation, create the
safety tag, then `reset --soft HEAD~count`. -/
def undoCommand (env : UndoEnv) (opts : UndoOpts) : CmdResult × List GitCall :=
  match parseJsInt (jsOrDefault opts.commits "1") with
  | none => (CmdResult.validationError "Number of commits must be a positive integer", [])
  | some n =>
    if n < 1 then
      (CmdResult.validationError "Number of commits must be a positive integer", [])
    else if n > 10 then
      (CmdResult.validationError "Cannot undo more than 10 commits at once for safety", [])
    else
      let commitCount := n.toNat
      let commits := env.history.take commitCount
      let t1 := [GitCall.commitsQuery "HEAD" (some commitCount)]
      if commits.length = 0 then (CmdResult.validationError "No commits found to undo", t1)
      else
        let t2 := t1 ++ [GitCall.upstreamQuery] ++
          (match env.upstream with
           | some u => [GitCall.countQuery (u ++ "..HEAD")]
           | none => [])
        if opts.dryRun then (CmdResult.dryRunExit, t2)
        else if opts.yes || env.confirmAnswer then
          let tagName := undoTagName commitCount env.timestamp env.randomSuffix
          let t3 := t2 ++ [GitCall.tagCreate tagName]
          if env.tagOk then
            let t4 := t3 ++ [GitCall.resetSoft commitCount]
            if env.resetOk then (CmdResult.ok, t4 ++ [GitCall.statusCall])
            else (CmdResult.toolError, t4)
          else (CmdResult.toolError, t3)
        else (CmdResult.cancelled, t2)

/-- Options of the revert-merge command. -/
structure RevertMergeOpts where
  mainline : Option String
  dryRun : Bool
  yes : Bool

/-- Environment observed by one run of the revert-merge command.  `parents`
is `none` when `rev-list --parents` fails (commit not found).
`randomSuffix` models the process PRNG draw available to the run; the
source never reads it when building this command's tag name. -/
structure RevertMergeEnv where
  parents : Option (List String)
  confirmAnswer : Bool
  timestamp : String
  randomSuffix : String
  tagOk : Bool
  revertOk : Bool

/-- The `revert-merge` command body: validate the SHA shape, fetch the
parents, require at least two, validate the mainline index, optionally stop
for dry-run or confirmation, create the safety tag, then revert with the
chosen mainline. -/
def revertMergeCommand (mergeSha : String) (env : RevertMergeEnv)
    (opts : RevertMergeOpts) : CmdResult × List GitCall :=
  if isValidSha mergeSha then
    let t1 := [GitCall.revListParents mergeSha]
    match env.parents with
    | none => (CmdResult.validationError "Commit not found", t1)
    | some parents =>
      if parents.length < 2 then
        (CmdResult.validationError "Commit is not a merge commit", t1)
      else
        match parseJsInt (jsOrDefault opts.mainline "1") with
        | none => (CmdResult.validationError "Invalid mainline", t1)
        | some m =>
          if m < 1 ∨ m > (parents.length : Int) then
            (CmdResult.validationError "Invalid mainline", t1)
          else if opts.dryRun then (CmdResult.dryRunExit, t1)
          else if opts.yes || env.confirmAnswer then
            let tagName := revertMergeTagName (mergeSha.take 8) env.timestamp
            let t2 := t1 ++ [GitCall.tagCreate tagName]
            if env.tagOk then
              let t3 := t2 ++ [GitCall.revertCall m.toNat mergeSha]
              if env.revertOk then (CmdResult.ok, t3)
              else (CmdResult.toolError, t3 ++ [GitCall.statusCall])
            else (CmdResult.toolError, t2)
          else (CmdResult.cancelled, t1)
  else (CmdResult.validationError "Invalid SHA", [])

/-- Outcome of `git stash create` as observed by the pocket command. -/
inductive StashCreateOutcome
  | threw
  | created (sha : String)
  | noChanges
deriving Repr, DecidableEq

/-- Options of the pocket command (`src/git-oops/src/cmd/pocket.ts`).
`push = none`: flag absent; `some none`: bare `--push`;
`some (some r)`: `--push r`. -/
structure PocketOpts where
  push : Option (Option String)
  yes : Bool

/-- Environment observed by one run of the pocket command. -/
structure PocketEnv where
  branch : String
  timestamp : String
  headSha : String
  stashOutcome : StashCreateOutcome
  updateRefOk : Bool
  resetOk : Bool
  cleanOk : Bool
  hasRemoteAnswer : Bool
  pushOk : Bool

/-- The `pocket` command body: try `stash create`; on a null result or on an
error fall back to `rev-parse HEAD`; point `refs/pocket/<branch>` at the
obtained sha; then `reset --hard HEAD` and `clean -fd`; optionally push the
ref (push failures are caught and only logged). -/
def pocketCommand (env : PocketEnv) (opts : PocketOpts) : CmdResult × List GitCall :=
  let pocketRef := "refs/pocket/" ++ env.branch
  let stashMsg := "pocket-" ++ env.timestamp
  let t1 := [GitCall.branchQuery, GitCall.stashCreateCall stashMsg]
  let shaAndTrace : String × List GitCall :=
    match env.stashOutcome with
    | StashCreateOutcome.created sha => (sha, t1)
    | StashCreateOutcome.noChanges => (env.headSha, t1 ++ [GitCall.revParseHead])
    | StashCreateOutcome.threw => (env.headSha, t1 ++ [GitCall.revParseHead])
  let t2 := shaAndTrace.2 ++ [GitCall.updateRefCall pocketRef shaAndTrace.1]
  if env.updateRefOk then
    let t3 := t2 ++ [GitCall.resetHard "HEAD"]
    if env.resetOk then
      let t4 := t3 ++ [GitCall.cleanForce]
      if env.cleanOk then
        match opts.push with
        | none => (CmdResult.ok, t4)
        | some r =>
          let remote := r.getD "origin"
          let t5 := t4 ++ [GitCall.remoteListQuery]
          if env.hasRemoteAnswer then (CmdResult.ok, t5 ++ [GitCall.pushRef remote pocketRef])
          else (CmdResult.validationError "Remote does not exist", t5)
      else (CmdResult.toolError, t4)
    else (CmdResult.toolError, t3)
  else (CmdResult.toolError, t2)

/-- Outcome of `git stash push -u` as observed by the yank command. -/
inductive StashPushOutcome
  | threw
  | created
  | noLocalChanges
deriving Repr, DecidableEq

/-- Environment observed by one run of the yank command
(`src/git-oops/src/cmd/yank.ts`). -/
structure YankEnv where
  branch : String
  upstream : Option String
  status : GitStatus
  timestamp : String
  stashOutcome : StashPushOutcome
  pullOk : Bool
  plainPullOk : Bool
  popOk : Bool

/-- The `yank` command body: with no upstream, try a plain pull and stop;
otherwise stash when the tree is dirty, pull with rebase (a failure is
re-raised, leaving the stash in place), then pop the stash when one was
created — a pop failure is reported and the command returns normally. -/
def yankCommand (env : YankEnv) : CmdResult × List GitCall :=
  let t1 := [GitCall.branchQuery, GitCall.upstreamQuery]
  match env.upstream with
  | none =>
    let t2 := t1 ++ [GitCall.pullCall false]
    if env.plainPullOk then (CmdResult.ok, t2) else (CmdResult.toolError, t2)
  | some _ =>
    let t2 := t1 ++ [GitCall.statusCall]
    let hasDirtyWork :=
      env.status.unstaged.length > 0 || env.status.untracked.length > 0 ||
        env.status.staged.length > 0
    if hasDirtyWork then
      let stashMsg := "oops-yank-" ++ env.timestamp
      let t3 := t2 ++ [GitCall.stashPush stashMsg]
      match env.stashOutcome with
      | StashPushOutcome.threw => (CmdResult.toolError, t3)
      | StashPushOutcome.noLocalChanges =>
        let t4 := t3 ++ [GitCall.pullCall true]
        if env.pullOk then (CmdResult.ok, t4) else (CmdResult.toolError, t4)
      | StashPushOutcome.created =>
        let t4 := t3 ++ [GitCall.pullCall true]
        if env.pullOk then
          let t5 := t4 ++ [GitCall.stashPop]
          if env.popOk then (CmdResult.ok, t5) else (CmdResult.partialSuccess, t5)
        else (CmdResult.toolError, t4)
    else
      let t4 := t2 ++ [GitCall.pullCall true]
      if env.pullOk then (CmdResult.ok, t4) else (CmdResult.toolError, t4)

/-- Modelled from the spec: the underlying version-control tool is an
external collaborator; `HEAD~k` names an existing revision exactly when the
current history (in a linear repository of `total` commits) has a commit `k`
steps behind its tip, i.e. when `k < total`.  `reset --soft HEAD~k` can only
succeed when this holds. -/
def headAncestorExists (total k : Nat) : Prop := k < total

theorem listLexLe_total : ∀ as bs : List Char,
    listLexLe as bs = true ∨ listLexLe bs as = true := by
  intro as
  induction as with
  | nil => intro bs; exact Or.inl rfl
  | cons a as ih =>
    intro bs
    cases bs with
    | nil => exact Or.inr rfl
    | cons b bs =>
      by_cases hab : a = b
      · subst hab
        rcases ih bs with h | h
        · exact Or.inl (by simp [listLexLe, h])
        · exact Or.inr (by simp [listLexLe, h])
      · rcases lt_or_gt_of_ne hab with h | h
        · exact Or.inl (by simp [listLexLe, hab, h])
        · have hba : b ≠ a := fun hb => hab hb.symm
          exact Or.inr (by simp [listLexLe, hba, h])

theorem listLexLe_trans : ∀ as bs cs : List Char,
    listLexLe as bs = true → listLexLe bs cs = true → listLexLe as cs = true := by
  intro as
  induction as with
  | nil => intro bs cs _ _; rfl
  | cons a as ih =>
    intro bs cs h1 h2
    cases bs with
    | nil => simp [listLexLe] at h1
    | cons b bs =>
      cases cs with
      | nil => simp [listLexLe] at h2
      | cons c cs =>
        by_cases hab : a = b <;> by_cases hbc : b = c
        · subst hab; subst hbc
          simp only [listLexLe, if_pos rfl] at h1 h2 ⊢
          exact ih bs cs h1 h2
        · subst hab
          simp only [listLexLe, if_pos rfl, if_neg hbc] at h2
          simp only [listLexLe, if_neg hbc]
          exact h2
        · subst hbc
          simp only [listLexLe, if_neg hab] at h1
          simp only [listLexLe, if_neg hab]
          exact h1
        · simp only [listLexLe, if_neg hab] at h1
          simp only [listLexLe, if_neg hbc] at h2
          have hac : a < c := lt_trans (of_decide_eq_true h1) (of_decide_eq_true h2)
          have hne : a ≠ c := ne_of_lt hac
          simp [listLexLe, hne, hac]

theorem listLexLe_refl : ∀ as : List Char, listLexLe as as = true := by
  intro as
  induction as with
  | nil => rfl
  | cons a as ih => simp [listLexLe, ih]

theorem dropLit_eq_some_iff : ∀ (ps cs rest : List Char),
    dropLit ps cs = some rest ↔ cs = ps ++ rest := by
  intro ps
  induction ps with
  | nil =>
    intro cs rest
    simp [dropLit, eq_comm]
  | cons p ps ih =>
    intro cs rest
    cases cs with
    | nil => simp [dropLit]
    | cons c cs =>
      by_cases h : c = p
      · subst h
        simp [dropLit, ih]
      · simp [dropLit, h]

theorem testDotPlusAfter_iff (p name : String) :
    testDotPlusAfter p name = true ↔
      ∃ c cs, name.data = p.data ++ c :: cs ∧ jsDotMatches c = true := by
  unfold testDotPlusAfter
  cases h : dropLit p.data name.data with
  | none =>
    simp only [Bool.false_eq_true, false_iff]
    rintro ⟨c, cs, hdata, _⟩
    have := (dropLit_eq_some_iff p.data name.data (c :: cs)).mpr hdata
    rw [h] at this
    cases this
  | some rest =>
    have hdata := (dropLit_eq_some_iff p.data name.data rest).mp h
    cases rest with
    | nil =>
      simp only [Bool.false_eq_true, false_iff]
      rintro ⟨c, cs, hd, _⟩
      rw [hdata] at hd
      have := List.append_cancel_left hd
      cases this
    | cons c cs =>
      constructor
      · intro hm
        exact ⟨c, cs, hdata, hm⟩
      · rintro ⟨c', cs', hd, hm⟩
        rw [hdata] at hd
        have := List.append_cancel_left hd
        cases this
        exact hm

/-- C9 (amended): `isProtectedBranch` returns true exactly when the name is
`main`, `master`, `production`, or `prod`, or begins with `release/` or
`hotfix/` followed by at least one character that is not a line terminator
(the JavaScript patterns `/^release\/.+/` and `/^hotfix\/.+/` require one
such character after the prefix); for every other name it returns false.
The embedding is a pure function of the name, performing no I/O. -/
theorem isProtectedBranch_spec (name : String) :
    isProtectedBranch name = true ↔
      (name = "main" ∨ name = "master" ∨ name = "production" ∨ name = "prod" ∨
       (∃ c cs, name.data = ("release/").data ++ c :: cs ∧ jsDotMatches c = true) ∨
       (∃ c cs, name.data = ("hotfix/").data ++ c :: cs ∧ jsDotMatches c = true)) := by
  unfold isProtectedBranch
  simp [testDotPlusAfter_iff, or_assoc]

/-- C9 counterexample: the branch name `release/` begins with `release/`
(it is `"release/" ++ ""`), yet `isProtectedBranch` returns false on it,
because the source pattern `/^release\/.+/` demands a character after the
slash. -/
theorem isProtectedBranch_bare_release_counterexample :
    isProtectedBranch "release/" = false ∧
      ∃ rest : String, "release/" = "release/" ++ rest := by
  constructor
  · decide
  · exact ⟨"", by decide⟩

/-- C2: for every commit-count argument whose effective value (after the
JavaScript falsy default, which maps an absent or empty option to `"1"`)
parses to `NaN` (non-numeric input) or to a value below 1 or above 10, the
undo command fails with a validation error before issuing any git call at
all: no safety marker is created and no history mutation occurs. -/
theorem undoCommand_invalid_count (env : UndoEnv) (opts : UndoOpts)
    (h : parseJsInt (jsOrDefault opts.commits "1") = none ∨
         ∃ n : Int, parseJsInt (jsOrDefault opts.commits "1") = some n ∧ (n < 1 ∨ n > 10)) :
    ∃ msg, undoCommand env opts = (CmdResult.validationError msg, []) := by
  unfold undoCommand
  rcases h with h | ⟨n, hn, hcase⟩
  · rw [h]
    exact ⟨_, rfl⟩
  · rw [hn]
    rcases hcase with hlt | hgt
    · simp only [if_pos hlt]
      exact ⟨_, rfl⟩
    · have hnlt : ¬ n < 1 := by omega
      simp only [if_neg hnlt, if_pos hgt]
      exact ⟨_, rfl⟩

/-- Witness for C2 at the concrete run `undo -n 11`. -/
theorem undoCommand_invalid_count_witness :
    ∃ msg, undoCommand ⟨[], none, 0, false, "20250101-120000", "abc123", true, true⟩
        ⟨some "11", false, false⟩ = (CmdResult.validationError msg, []) :=
  undoCommand_invalid_count _ _ (Or.inr ⟨11, by decide, Or.inr (by decide)⟩)

/-- C10: on a fully clean tree (no staged, unstaged or untracked files) the
quick-save command stops after its status read: no mutating call is issued
and no commit is created, so a second run after a run that left the tree
clean is a no-op. -/
theorem saveCommand_clean_noop (env : SaveEnv) (opts : SaveOpts)
    (h1 : env.status.staged = []) (h2 : env.status.unstaged = [])
    (h3 : env.status.untracked = []) :
    saveCommand env opts = (CmdResult.noop, [GitCall.statusCall]) ∧
    ∀ c ∈ (saveCommand env opts).2, isMutatingCall c = false := by
  have key : saveCommand env opts = (CmdResult.noop, [GitCall.statusCall]) := by
    unfold saveCommand
    simp [h1, h2, h3]
  refine ⟨key, ?_⟩
  rw [key]
  intro c hc
  simp only [List.mem_singleton] at hc
  subst hc
  rfl

/-- Witness for C10 at a concrete clean repository state. -/
theorem saveCommand_clean_noop_witness :
    saveCommand ⟨⟨[], [], [], "main", 0, 0⟩, true, true, true⟩ ⟨none, true⟩ =
        (CmdResult.noop, [GitCall.statusCall]) ∧
    ∀ c ∈ (saveCommand ⟨⟨[], [], [], "main", 0, 0⟩, true, true, true⟩ ⟨none, true⟩).2,
      isMutatingCall c = false :=
  saveCommand_clean_noop _ _ rfl rfl rfl

/-- C7: when `stash create` raises while the pocket command runs, the command
does not abort: it falls back to `rev-parse HEAD`, stores HEAD (not the
uncommitted changes) under the pocket ref, and still executes the hard reset
and the clean of the working directory, so nothing in the trace captures the
uncommitted changes before they are discarded. -/
theorem pocketCommand_stash_failure (env : PocketEnv) (opts : PocketOpts)
    (hs : env.stashOutcome = StashCreateOutcome.threw)
    (hu : env.updateRefOk = true) (hr : env.resetOk = true) (hc : env.cleanOk = true)
    (hp : opts.push = none) :
    pocketCommand env opts =
      (CmdResult.ok,
       [GitCall.branchQuery, GitCall.stashCreateCall ("pocket-" ++ env.timestamp),
        GitCall.revParseHead,
        GitCall.updateRefCall ("refs/pocket/" ++ env.branch) env.headSha,
        GitCall.resetHard "HEAD", GitCall.cleanForce]) := by
  unfold pocketCommand
  rw [hs, hp]
  simp [hu, hr, hc]

/-- Witness for C7 at a concrete run whose `stash create` raises. -/
theorem pocketCommand_stash_failure_witness :
    pocketCommand ⟨"main", "20250101-120000", "aaaaaaa1", StashCreateOutcome.threw,
        true, true, true, false, false⟩ ⟨none, false⟩ =
      (CmdResult.ok,
       [GitCall.branchQuery, GitCall.stashCreateCall "pocket-20250101-120000",
        GitCall.revParseHead,
        GitCall.updateRefCall "refs/pocket/main" "aaaaaaa1",
        GitCall.resetHard "HEAD", GitCall.cleanForce]) :=
  pocketCommand_stash_failure _ _ rfl rfl rfl rfl rfl

/-- C8: in a yank run that stashed dirty work, a pull failure is re-raised as
a fatal error before any restore attempt (no `stash pop` appears in the
trace), while a pop failure after a successful pull ends the run normally as
a partial success, reported separately rather than raised. -/
theorem yankCommand_pull_and_pop_failures (env : YankEnv) (u : String)
    (hup : env.upstream = some u)
    (hdirty : ¬(env.status.unstaged = [] ∧ env.status.untracked = [] ∧
                env.status.staged = []))
    (hstash : env.stashOutcome = StashPushOutcome.created) :
    (env.pullOk = true → env.popOk = false →
      yankCommand env =
        (CmdResult.partialSuccess,
         [GitCall.branchQuery, GitCall.upstreamQuery, GitCall.statusCall,
          GitCall.stashPush ("oops-yank-" ++ env.timestamp), GitCall.pullCall true,
          GitCall.stashPop])) ∧
    (env.pullOk = false →
      yankCommand env =
        (CmdResult.toolError,
         [GitCall.branchQuery, GitCall.upstreamQuery, GitCall.statusCall,
          GitCall.stashPush ("oops-yank-" ++ env.timestamp), GitCall.pullCall true]) ∧
      GitCall.stashPop ∉ (yankCommand env).2) := by
  have hd : (env.status.unstaged.length > 0 || env.status.untracked.length > 0 ||
      env.status.staged.length > 0) = true := by
    rcases List.eq_nil_or_concat env.status.unstaged with h1 | ⟨l, a, h1⟩
    · rcases List.eq_nil_or_concat env.status.untracked with h2 | ⟨l2, a2, h2⟩
      · rcases List.eq_nil_or_concat env.status.staged with h3 | ⟨l3, a3, h3⟩
        · exact absurd ⟨h1, h2, h3⟩ hdirty
        · simp [h3]
      · simp [h2]
    · simp [h1]
  constructor
  · intro hpull hpop
    unfold yankCommand
    rw [hup]
    simp [hd, hstash, hpull, hpop]
  · intro hpull
    have key : yankCommand env =
        (CmdResult.toolError,
         [GitCall.branchQuery, GitCall.upstreamQuery, GitCall.statusCall,
          GitCall.stashPush ("oops-yank-" ++ env.timestamp), GitCall.pullCall true]) := by
      unfold yankCommand
      rw [hup]
      simp [hd, hstash, hpull]
    refine ⟨key, ?_⟩
    rw [key]
    simp [isMutatingCall]

/-- Witness for C8: concrete dirty run where the pull succeeds and the pop
fails, ending as a partial success. -/
theorem yankCommand_pull_and_pop_failures_witness :
    yankCommand ⟨"main", some "origin/main", ⟨["a.txt"], [], [], "main", 0, 0⟩,
        "20250101-120000", StashPushOutcome.created, true, true, false⟩ =
      (CmdResult.partialSuccess,
       [GitCall.branchQuery, GitCall.upstreamQuery, GitCall.statusCall,
        GitCall.stashPush "oops-yank-20250101-120000", GitCall.pullCall true,
        GitCall.stashPop]) :=
  (yankCommand_pull_and_pop_failures _ "origin/main" rfl (by simp) rfl).1 rfl rfl

/-- C6: for every target commit that exists, the revert-merge command throws
a validation error — with no safety marker created and no mutating call
issued (its whole trace is the single read of the parent list) — whenever
the commit has fewer than 2 parents, or the mainline argument (after the
JavaScript falsy default, which maps an absent or empty option to `"1"`)
fails to parse or lies outside `[1, parentCount]`. -/
theorem revertMergeCommand_validation (mergeSha : String) (env : RevertMergeEnv)
    (opts : RevertMergeOpts) (parents : List String)
    (hv : isValidSha mergeSha = true)
    (hp : env.parents = some parents)
    (h : parents.length < 2 ∨
         parseJsInt (jsOrDefault opts.mainline "1") = none ∨
         ∃ m : Int, parseJsInt (jsOrDefault opts.mainline "1") = some m ∧
           (m < 1 ∨ m > (parents.length : Int))) :
    (∃ msg, revertMergeCommand mergeSha env opts =
        (CmdResult.validationError msg, [GitCall.revListParents mergeSha])) ∧
    ∀ c ∈ (revertMergeCommand mergeSha env opts).2,
      isMutatingCall c = false ∧ isMarkerCall c = false := by
  have key : ∃ msg, revertMergeCommand mergeSha env opts =
      (CmdResult.validationError msg, [GitCall.revListParents mergeSha]) := by
    unfold revertMergeCommand
    rw [hp]
    simp only [hv, if_true]
    by_cases hl : parents.length < 2
    · simp only [if_pos hl]
      exact ⟨_, rfl⟩
    · simp only [if_neg hl]
      rcases h with h | h | ⟨m, hm, hcase⟩
      · exact absurd h hl
      · rw [h]
        exact ⟨_, rfl⟩
      · rw [hm]
        have : (m < 1 ∨ m > (parents.length : Int)) = True := by
          simp [hcase]
        simp only [this, if_true]
        exact ⟨_, rfl⟩
  obtain ⟨msg, hmsg⟩ := key
  refine ⟨⟨msg, hmsg⟩, ?_⟩
  rw [hmsg]
  intro c hc
  simp only [List.mem_singleton] at hc
  subst hc
  exact ⟨rfl, rfl⟩

/-- Witness for C6: reverting a single-parent (non-merge) commit. -/
theorem revertMergeCommand_validation_witness :
    (∃ msg, revertMergeCommand "abcdef12"
        ⟨some ["aaaaaaa1"], true, "20250101-120000", "abc123", true, true⟩
        ⟨some "1", false, true⟩ =
        (CmdResult.validationError msg, [GitCall.revListParents "abcdef12"])) ∧
    ∀ c ∈ (revertMergeCommand "abcdef12"
        ⟨some ["aaaaaaa1"], true, "20250101-120000", "abc123", true, true⟩
        ⟨some "1", false, true⟩).2,
      isMutatingCall c = false ∧ isMarkerCall c = false :=
  revertMergeCommand_validation _ _ _ ["aaaaaaa1"] (by decide) rfl (Or.inl (by decide))

theorem string_append_right_injective (a : String) {b c : String}
    (h : a ++ b = a ++ c) : b = c := by
  have hd := congrArg String.data h
  rw [String.data_append, String.data_append] at hd
  exact String.ext (List.append_cancel_left hd)

/-- C4 (amended): the undo command's marker name is derived from the
operation kind, the commit count, the second-granularity timestamp and a
random suffix, so two generations in the same run with distinct random
draws yield distinct names even within the same second; the revert-merge
command's marker name omits the random suffix — its whole run is
independent of the process PRNG draw, so two invocations in the same second
on the same target produce identical marker names. -/
theorem markerName_randomness (count : Nat) (ts s1 s2 : String) (hne : s1 ≠ s2) :
    undoTagName count ts s1 ≠ undoTagName count ts s2 ∧
    ∀ (sha : String) (env : RevertMergeEnv) (opts : RevertMergeOpts) (r1 r2 : String),
      revertMergeCommand sha { env with randomSuffix := r1 } opts =
        revertMergeCommand sha { env with randomSuffix := r2 } opts := by
  constructor
  · intro h
    unfold undoTagName at h
    exact hne (string_append_right_injective _ h)
  · intro sha env opts r1 r2
    rfl

/-- Witness for C4 (amended): distinct suffix draws in the same second give
distinct undo marker names. -/
theorem markerName_randomness_witness :
    undoTagName 1 "20250101-120000" "aaaaaa" ≠ undoTagName 1 "20250101-120000" "bbbbbb" :=
  (markerName_randomness 1 "20250101-120000" "aaaaaa" "bbbbbb" (by decide)).1

/-- C4 counterexample: two revert-merge invocations in the same second with
different PRNG draws issue the same marker creation — the generated names
are not pairwise distinct, refuting the claim that every marker name
carries a random suffix making same-second generations distinct. -/
theorem revertMerge_markerName_collision :
    (revertMergeCommand "abcdef12"
        ⟨some ["aaaaaaa1", "aaaaaaa2"], true, "20250101-120000", "aaaaaa", true, true⟩
        ⟨some "1", false, true⟩).2 =
      (revertMergeCommand "abcdef12"
        ⟨some ["aaaaaaa1", "aaaaaaa2"], true, "20250101-120000", "bbbbbb", true, true⟩
        ⟨some "1", false, true⟩).2 ∧
    GitCall.tagCreate (revertMergeTagName "abcdef12" "20250101-120000") ∈
      (revertMergeCommand "abcdef12"
        ⟨some ["aaaaaaa1", "aaaaaaa2"], true, "20250101-120000", "aaaaaa", true, true⟩
        ⟨some "1", false, true⟩).2 ∧
    ("aaaaaa" : String) ≠ "bbbbbb" := by
  refine ⟨rfl, by decide, by decide⟩

/-- C1 (amended): in the two executors that create a safety marker — undo
and revert-merge — every run satisfies the ordering invariant: no mutating
call appears in the trace before the safety-tag creation. -/
theorem undo_revertMerge_secure_before_mutate
    (uenv : UndoEnv) (uopts : UndoOpts) (sha : String)
    (renv : RevertMergeEnv) (ropts : RevertMergeOpts) :
    secureBeforeMutate (undoCommand uenv uopts).2 = true ∧
    secureBeforeMutate (revertMergeCommand sha renv ropts).2 = true := by
  constructor
  · unfold undoCommand
    repeat' split
    all_goals simp [secureBeforeMutate, isMutatingCall, isMarkerCall]
    all_goals repeat' split
    all_goals simp [secureBeforeMutate, isMutatingCall, isMarkerCall]
  · unfold revertMergeCommand
    repeat' split
    all_goals simp [secureBeforeMutate, isMutatingCall, isMarkerCall]

/-- C1 counterexample: a quick-save run on a dirty tree reaches a mutating
`git commit` with no safety marker created earlier in the run — indeed its
trace contains no marker creation at all — refuting the claim that the
Secure step precedes the first Mutate step in every execution of every
command. -/
theorem saveCommand_mutates_without_marker :
    (saveCommand ⟨⟨["a.txt"], [], [], "main", 0, 0⟩, true, true, true⟩
        ⟨none, true⟩).2.any isMutatingCall = true ∧
    secureBeforeMutate (saveCommand ⟨⟨["a.txt"], [], [], "main", 0, 0⟩, true, true, true⟩
        ⟨none, true⟩).2 = false ∧
    (saveCommand ⟨⟨["a.txt"], [], [], "main", 0, 0⟩, true, true, true⟩
        ⟨none, true⟩).2.all (fun c => !isMarkerCall c) = true := by
  refine ⟨by decide, by decide, by decide⟩

/-- C3 (code bug): in a repository with exactly 3 commits, `undo -n 5 --yes`
warns that only 3 commits are available but then issues
`reset --soft HEAD~5` with the requested count 5 — a revision that does not
exist (`headAncestorExists 3 5` is false) — so the run ends in a tool error
instead of undoing the 3 existing commits; it never issues `reset --soft`
with the available count 3. -/
theorem undoCommand_fewer_commits_resets_requested_count :
    undoCommand
        ⟨[⟨"aaaaaaa1", "s1", "au", "d1"⟩, ⟨"aaaaaaa2", "s2", "au", "d2"⟩,
          ⟨"aaaaaaa3", "s3", "au", "d3"⟩],
         none, 0, false, "20250101-120000", "abc123", true, false⟩
        ⟨some "5", false, true⟩ =
      (CmdResult.toolError,
       [GitCall.commitsQuery "HEAD" (some 5), GitCall.upstreamQuery,
        GitCall.tagCreate "oops/undo-5-commits-20250101-120000-abc123",
        GitCall.resetSoft 5]) ∧
    ¬ headAncestorExists 3 5 ∧
    GitCall.resetSoft 3 ∉
      [GitCall.commitsQuery "HEAD" (some 5), GitCall.upstreamQuery,
       GitCall.tagCreate "oops/undo-5-commits-20250101-120000-abc123",
       GitCall.resetSoft 5] := by
  refine ⟨by decide, ?_, by decide⟩
  intro h
  exact absurd h (by unfold headAncestorExists; omega)

theorem addToGroups_keys (m : List (String × List String)) (k f : String) :
    (addToGroups m k f).map Prod.fst =
      if k ∈ m.map Prod.fst then m.map Prod.fst else m.map Prod.fst ++ [k] := by
  induction m with
  | nil => simp [addToGroups]
  | cons kv rest ih =>
    obtain ⟨k', fs⟩ := kv
    by_cases h : k' = k
    · subst h
      simp [addToGroups]
    · have h' : k ≠ k' := fun hk => h hk.symm
      simp only [addToGroups, if_neg h, List.map_cons, List.mem_cons, h', false_or, ih]
      by_cases hmem : k ∈ rest.map Prod.fst
      · simp [hmem]
      · simp [hmem]

theorem addToGroups_keys_nodup {m : List (String × List String)} {k f : String}
    (h : (m.map Prod.fst).Nodup) : ((addToGroups m k f).map Prod.fst).Nodup := by
  rw [addToGroups_keys]
  by_cases hmem : k ∈ m.map Prod.fst
  · simpa [hmem] using h
  · simp only [hmem, if_false]
    rw [List.nodup_append]
    refine ⟨h, List.nodup_singleton k, ?_⟩
    intro a ha hb
    simp only [List.mem_singleton] at hb
    subst hb
    exact hmem ha

theorem addToGroups_flatten (m : List (String × List String)) (k f : String) :
    List.Perm ((addToGroups m k f).map Prod.snd).flatten
      (f :: (m.map Prod.snd).flatten) := by
  induction m with
  | nil => simp [addToGroups]
  | cons kv rest ih =>
    obtain ⟨k', fs⟩ := kv
    by_cases h : k' = k
    · subst h
      have hred : addToGroups ((k', fs) :: rest) k' f = (k', fs ++ [f]) :: rest := by
        simp [addToGroups]
      rw [hred]
      simp only [List.map_cons, List.flatten_cons]
      have heq : (fs ++ [f]) ++ (rest.map Prod.snd).flatten
          = fs ++ (f :: (rest.map Prod.snd).flatten) := by simp
      rw [heq]
      exact List.perm_middle
    · simp only [addToGroups, if_neg h, List.map_cons, List.flatten_cons]
      exact (List.Perm.append_left fs ih).trans List.perm_middle

theorem addToGroups_inv {m : List (String × List String)} {k f : String}
    (hm : ∀ p ∈ m, ∀ x ∈ p.2, getTopLevelDirectory x = p.1)
    (hf : getTopLevelDirectory f = k) :
    ∀ p ∈ addToGroups m k f, ∀ x ∈ p.2, getTopLevelDirectory x = p.1 := by
  induction m with
  | nil =>
    intro p hp x hx
    simp only [addToGroups, List.mem_singleton] at hp
    subst hp
    simp only [List.mem_singleton] at hx
    subst hx
    exact hf
  | cons kv rest ih =>
    obtain ⟨k', fs⟩ := kv
    by_cases h : k' = k
    · subst h
      intro p hp x hx
      have hred : addToGroups ((k', fs) :: rest) k' f = (k', fs ++ [f]) :: rest := by
        simp [addToGroups]
      rw [hred] at hp
      simp only [List.mem_cons] at hp
      rcases hp with hp | hp
      · subst hp
        simp only [List.mem_append, List.mem_singleton] at hx
        rcases hx with hx | hx
        · exact hm (k', fs) (List.mem_cons_self _ _) x hx
        · subst hx
          exact hf
      · exact hm p (List.mem_cons_of_mem _ hp) x hx
    · intro p hp x hx
      simp only [addToGroups, if_neg h, List.mem_cons] at hp
      rcases hp with hp | hp
      · subst hp
        exact hm (k', fs) (List.mem_cons_self _ _) x hx
      · exact ih (fun q hq => hm q (List.mem_cons_of_mem _ hq)) p hp x hx

theorem buildGroups_aux_keys_nodup (files : List String) :
    ∀ m : List (String × List String), (m.map Prod.fst).Nodup →
      ((files.foldl (fun m f => addToGroups m (getTopLevelDirectory f) f) m).map
        Prod.fst).Nodup := by
  induction files with
  | nil => intro m hm; simpa using hm
  | cons f fs ih =>
    intro m hm
    simp only [List.foldl_cons]
    exact ih _ (addToGroups_keys_nodup hm)

theorem buildGroups_keys_nodup (files : List String) :
    ((buildGroups files).map Prod.fst).Nodup :=
  buildGroups_aux_keys_nodup files [] (by simp)

theorem buildGroups_aux_flatten (files : List String) :
    ∀ m : List (String × List String),
      List.Perm
        ((files.foldl (fun m f => addToGroups m (getTopLevelDirectory f) f) m).map
          Prod.snd).flatten
        ((m.map Prod.snd).flatten ++ files) := by
  induction files with
  | nil => intro m; simp
  | cons f fs ih =>
    intro m
    simp only [List.foldl_cons]
    refine (ih _).trans ?_
    refine ((addToGroups_flatten m (getTopLevelDirectory f) f).append_right fs).trans ?_
    exact List.perm_middle.symm

theorem buildGroups_flatten_perm (files : List String) :
    List.Perm ((buildGroups files).map Prod.snd).flatten files := by
  have h := buildGroups_aux_flatten files []
  simpa [buildGroups] using h

theorem buildGroups_aux_inv (files : List String) :
    ∀ m : List (String × List String),
      (∀ p ∈ m, ∀ x ∈ p.2, getTopLevelDirectory x = p.1) →
      ∀ p ∈ files.foldl (fun m f => addToGroups m (getTopLevelDirectory f) f) m,
        ∀ x ∈ p.2, getTopLevelDirectory x = p.1 := by
  induction files with
  | nil => intro m hm; simpa using hm
  | cons f fs ih =>
    intro m hm
    simp only [List.foldl_cons]
    exact ih _ (addToGroups_inv hm rfl)

theorem buildGroups_inv (files : List String) :
    ∀ p ∈ buildGroups files, ∀ x ∈ p.2, getTopLevelDirectory x = p.1 :=
  buildGroups_aux_inv files [] (by simp)

theorem lookupGroup_mem {m : List (String × List String)} {d : String}
    (h : lookupGroup m d ≠ []) : (d, lookupGroup m d) ∈ m := by
  induction m with
  | nil => simp [lookupGroup] at h
  | cons kv rest ih =>
    obtain ⟨k, fs⟩ := kv
    by_cases hk : k = d
    · subst hk
      simp [lookupGroup]
    · simp only [lookupGroup, if_neg hk] at h ⊢
      exact List.mem_cons_of_mem _ (ih h)

theorem flatten_map_lookup (m : List (String × List String))
    (h : (m.map Prod.fst).Nodup) :
    ((m.map Prod.fst).map (lookupGroup m)).flatten = (m.map Prod.snd).flatten := by
  induction m with
  | nil => simp
  | cons kv rest ih =>
    obtain ⟨k, fs⟩ := kv
    have h' : (k :: rest.map Prod.fst).Nodup := h
    have hk : k ∉ rest.map Prod.fst := (List.nodup_cons.mp h').1
    have hrest : (rest.map Prod.fst).Nodup := (List.nodup_cons.mp h').2
    simp only [List.map_cons, List.flatten_cons]
    have h1 : lookupGroup ((k, fs) :: rest) k = fs := by simp [lookupGroup]
    have h2 : (rest.map Prod.fst).map (lookupGroup ((k, fs) :: rest))
        = (rest.map Prod.fst).map (lookupGroup rest) := by
      apply List.map_congr_left
      intro d hd
      have hne : k ≠ d := fun hkd => hk (hkd ▸ hd)
      simp [lookupGroup, if_neg hne]
    rw [h1, h2, ih hrest]

theorem dirLe_root_right (a : String) : dirLe a "_root_" := by
  by_cases ha : a = "_root_"
  · subst ha
    simp [dirLe, dirLE, strLe, listLexLe_refl]
  · simp [dirLe, dirLE, ha]

theorem not_dirLe_root_left {b : String} (hb : b ≠ "_root_") : ¬ dirLe "_root_" b := by
  simp [dirLe, dirLE, hb]

theorem dirLe_of_le {a b : String} (ha : a ≠ "_root_") (h : strLe a b = true) :
    dirLe a b := by
  by_cases hb : b = "_root_"
  · exact hb ▸ dirLe_root_right a
  · simp [dirLe, dirLE, ha, hb, h]

theorem le_of_dirLe {a b : String} (hb : b ≠ "_root_") (h : dirLe a b) :
    strLe a b = true ∧ a ≠ "_root_" := by
  by_cases ha : a = "_root_"
  · exact absurd (ha ▸ h) (not_dirLe_root_left hb)
  · refine ⟨?_, ha⟩
    simpa [dirLe, dirLE, ha, hb] using h

instance : IsTotal String dirLe := by
  refine ⟨fun a b => ?_⟩
  by_cases hb : b = "_root_"
  · exact Or.inl (hb ▸ dirLe_root_right a)
  · by_cases ha : a = "_root_"
    · exact Or.inr (ha ▸ dirLe_root_right b)
    · rcases listLexLe_total a.data b.data with h | h
      · exact Or.inl (dirLe_of_le ha h)
      · exact Or.inr (dirLe_of_le hb h)

instance : IsTrans String dirLe := by
  refine ⟨fun a b c hab hbc => ?_⟩
  by_cases hc : c = "_root_"
  · exact hc ▸ dirLe_root_right a
  · obtain ⟨hbc', hbne⟩ := le_of_dirLe hc hbc
    obtain ⟨hab', hane⟩ := le_of_dirLe hbne hab
    exact dirLe_of_le hane (listLexLe_trans _ _ _ hab' hbc')

instance : IsTotal String fileLe := ⟨fun a b => listLexLe_total a.data b.data⟩

instance : IsTrans String fileLe :=
  ⟨fun _ _ _ h1 h2 => listLexLe_trans _ _ _ h1 h2⟩

theorem sorted_nodup_root_last :
    ∀ l : List String, List.Sorted dirLe l → l.Nodup → "_root_" ∈ l →
      l.getLast? = some "_root_" := by
  intro l
  induction l with
  | nil => intro _ _ h; cases h
  | cons d rest ih =>
    intro hs hn hm
    cases rest with
    | nil =>
      simp only [List.mem_singleton] at hm
      subst hm
      rfl
    | cons r rest' =>
      rcases List.mem_cons.mp hm with hd | hd
      · subst hd
        exfalso
        have hr : dirLe "_root_" r :=
          (List.sorted_cons.mp hs).1 r (List.mem_cons_self r rest')
        have hne : r ≠ "_root_" := by
          intro h
          exact (List.nodup_cons.mp hn).1 (by rw [h]; exact List.mem_cons_self _ _)
        exact absurd hr (not_dirLe_root_left hne)
      · rw [List.getLast?_cons_cons]
        exact ih (List.sorted_cons.mp hs).2 (List.nodup_cons.mp hn).2 hd

theorem flatten_map_perm_congr {α β : Type} (l : List α) (F G : α → List β)
    (h : ∀ d ∈ l, List.Perm (F d) (G d)) :
    List.Perm (l.map F).flatten (l.map G).flatten := by
  induction l with
  | nil => simp
  | cons d rest ih =>
    simp only [List.map_cons, List.flatten_cons]
    exact (h d (List.mem_cons_self _ _)).append
      (ih (fun x hx => h x (List.mem_cons_of_mem _ hx)))

/-- C5: for every list of file paths, `groupFilesByDirectory` is a
partition: the concatenation of the group file lists is a permutation of
the input (each input file occurs exactly once across the groups), every
input file lies in exactly one group, the group keys are sorted by the
directory order with the sentinel `_root_` group always last, and each
group's file list is sorted. -/
theorem groupFilesByDirectory_partition (files : List String) :
    List.Perm ((groupFilesByDirectory files).map FileGroup.files).flatten files ∧
    (∀ f ∈ files, ∃! g, g ∈ groupFilesByDirectory files ∧ f ∈ g.files) ∧
    List.Sorted dirLe ((groupFilesByDirectory files).map FileGroup.directory) ∧
    ("_root_" ∈ (groupFilesByDirectory files).map FileGroup.directory →
      ((groupFilesByDirectory files).map FileGroup.directory).getLast? = some "_root_") ∧
    (∀ g ∈ groupFilesByDirectory files, List.Sorted fileLe g.files) := by
  have hnodupkeys := buildGroups_keys_nodup files
  have hflatten := buildGroups_flatten_perm files
  have hinv := buildGroups_inv files
  have hG : groupFilesByDirectory files
      = (((buildGroups files).map Prod.fst).insertionSort dirLe).map
          (fun d => FileGroup.mk d
            ((lookupGroup (buildGroups files) d).insertionSort fileLe)) := rfl
  have hsortperm : List.Perm (((buildGroups files).map Prod.fst).insertionSort dirLe)
      ((buildGroups files).map Prod.fst) := List.perm_insertionSort _ _
  have hdirs : (groupFilesByDirectory files).map FileGroup.directory
      = ((buildGroups files).map Prod.fst).insertionSort dirLe := by
    rw [hG, List.map_map]
    exact List.map_id _
  have hperm : List.Perm ((groupFilesByDirectory files).map FileGroup.files).flatten
      files := by
    rw [hG, List.map_map]
    have step1 : List.Perm
        ((((buildGroups files).map Prod.fst).insertionSort dirLe).map
          (FileGroup.files ∘ fun d => FileGroup.mk d
            ((lookupGroup (buildGroups files) d).insertionSort fileLe))).flatten
        ((((buildGroups files).map Prod.fst).insertionSort dirLe).map
          (lookupGroup (buildGroups files))).flatten :=
      flatten_map_perm_congr _ _ _ (fun d _ => List.perm_insertionSort _ _)
    refine step1.trans ?_
    refine (List.Perm.flatten (hsortperm.map (lookupGroup (buildGroups files)))).trans ?_
    rw [flatten_map_lookup _ hnodupkeys]
    exact hflatten
  have hdir_of_mem : ∀ g ∈ groupFilesByDirectory files, ∀ x ∈ g.files,
      getTopLevelDirectory x = g.directory := by
    rw [hG]
    rintro g hg x hx
    obtain ⟨d, _, rfl⟩ := List.mem_map.mp hg
    have hx' : x ∈ lookupGroup (buildGroups files) d := (List.mem_insertionSort _).mp hx
    have hne : lookupGroup (buildGroups files) d ≠ [] := by
      intro h0
      rw [h0] at hx'
      cases hx'
    exact hinv _ (lookupGroup_mem hne) x hx'
  have hinj : ∀ g₁ ∈ groupFilesByDirectory files, ∀ g₂ ∈ groupFilesByDirectory files,
      g₁.directory = g₂.directory → g₁ = g₂ := by
    rw [hG]
    rintro g1 hg1 g2 hg2 hd
    obtain ⟨d1, _, rfl⟩ := List.mem_map.mp hg1
    obtain ⟨d2, _, rfl⟩ := List.mem_map.mp hg2
    have hd' : d1 = d2 := hd
    subst hd'
    rfl
  have huniq : ∀ f ∈ files, ∃! g, g ∈ groupFilesByDirectory files ∧ f ∈ g.files := by
    intro f hf
    have hmem : f ∈ ((groupFilesByDirectory files).map FileGroup.files).flatten :=
      hperm.mem_iff.mpr hf
    obtain ⟨l, hl, hfl⟩ := List.mem_flatten.mp hmem
    obtain ⟨g, hg, rfl⟩ := List.mem_map.mp hl
    refine ⟨g, ⟨hg, hfl⟩, ?_⟩
    rintro g' ⟨hg', hfg'⟩
    apply hinj g' hg' g hg
    rw [← hdir_of_mem g' hg' f hfg', ← hdir_of_mem g hg f hfl]
  have hsorted : List.Sorted dirLe ((groupFilesByDirectory files).map FileGroup.directory) := by
    rw [hdirs]
    exact List.sorted_insertionSort dirLe _
  have hrootlast : "_root_" ∈ (groupFilesByDirectory files).map FileGroup.directory →
      ((groupFilesByDirectory files).map FileGroup.directory).getLast? = some "_root_" := by
    intro hmem
    have hnodup' : ((groupFilesByDirectory files).map FileGroup.directory).Nodup := by
      rw [hdirs]
      exact hsortperm.nodup_iff.mpr hnodupkeys
    exact sorted_nodup_root_last _ hsorted hnodup' hmem
  have hfsorted : ∀ g ∈ groupFilesByDirectory files, List.Sorted fileLe g.files := by
    rw [hG]
    rintro g hg
    obtain ⟨d, _, rfl⟩ := List.mem_map.mp hg
    exact List.sorted_insertionSort fileLe _
  exact ⟨hperm, huniq, hsorted, hrootlast, hfsorted⟩

/-- Witness for C5 at the concrete staged set
`["src/a.js", "src/b.js", "docs/readme.md"]`: the computed partition, and
the partition theorem instantiated there. -/
theorem groupFilesByDirectory_partition_witness :
    groupFilesByDirectory ["src/a.js", "src/b.js", "docs/readme.md"] =
      [⟨"docs", ["docs/readme.md"]⟩, ⟨"src", ["src/a.js", "src/b.js"]⟩] ∧
    (List.Perm ((groupFilesByDirectory ["src/a.js", "src/b.js", "docs/readme.md"]).map
        FileGroup.files).flatten ["src/a.js", "src/b.js", "docs/readme.md"] ∧
     (∀ f ∈ ["src/a.js", "src/b.js", "docs/readme.md"],
        ∃! g, g ∈ groupFilesByDirectory ["src/a.js", "src/b.js", "docs/readme.md"] ∧
          f ∈ g.files) ∧
     List.Sorted dirLe ((groupFilesByDirectory
        ["src/a.js", "src/b.js", "docs/readme.md"]).map FileGroup.directory) ∧
     ("_root_" ∈ (groupFilesByDirectory
          ["src/a.js", "src/b.js", "docs/readme.md"]).map FileGroup.directory →
        ((groupFilesByDirectory ["src/a.js", "src/b.js", "docs/readme.md"]).map
          FileGroup.directory).getLast? = some "_root_") ∧
     (∀ g ∈ groupFilesByDirectory ["src/a.js", "src/b.js", "docs/readme.md"],
        List.Sorted fileLe g.files)) :=
  ⟨by decide, groupFilesByDirectory_partition ["src/a.js", "src/b.js", "docs/readme.md"]⟩

theorem isMarkerCall_iff (c : GitCall) :
    isMarkerCall c = true ↔ ∃ name, c = GitCall.tagCreate name := by
  cases c <;> simp [isMarkerCall]

theorem secureBeforeMutate_iff (l : List GitCall) :
    secureBeforeMutate l = true ↔
      ∀ pre c suf, l = pre ++ c :: suf → isMutatingCall c = true →
        ∃ name, GitCall.tagCreate name ∈ pre := by
  induction l with
  | nil =>
    constructor
    · intro _ pre c suf h
      simp at h
    · intro _
      rfl
  | cons x rest ih =>
    unfold secureBeforeMutate
    by_cases hmut : isMutatingCall x = true
    · rw [if_pos hmut]
      constructor
      · intro hfalse
        cases hfalse
      · intro hR
        obtain ⟨name, hname⟩ := hR [] x rest rfl hmut
        cases hname
    · rw [if_neg hmut]
      by_cases hmark : isMarkerCall x = true
      · rw [if_pos hmark]
        constructor
        · intro _ pre c suf heq hc
          cases pre with
          | nil =>
            injection heq with h1 h2
            exact absurd (h1 ▸ hc) hmut
          | cons y pre' =>
            injection heq with h1 h2
            obtain ⟨name, hx⟩ := (isMarkerCall_iff x).mp hmark
            refine ⟨name, ?_⟩
            rw [← h1, hx]
            exact List.mem_cons_self _ _
        · intro _
          rfl
      · rw [if_neg hmark]
        rw [ih]
        constructor
        · intro hR pre c suf heq hc
          cases pre with
          | nil =>
            injection heq with h1 h2
            exact absurd (h1 ▸ hc) hmut
          | cons y pre' =>
            injection heq with h1 h2
            obtain ⟨name, hn⟩ := hR pre' c suf h2 hc
            exact ⟨name, List.mem_cons_of_mem _ hn⟩
        · intro hR pre c suf heq hc
          obtain ⟨name, hn⟩ := hR (x :: pre) c suf (by rw [heq]; rfl) hc
          rcases List.mem_cons.mp hn with h | h
          · exfalso
            have : isMarkerCall x = true := by
              rw [← h]
              rfl
            exact hmark this
          · exact ⟨name, h⟩
